import Mathlib

/-
Verification development for the StockWish chess engine search core.

The chess rules engine (the external chess crate: legal move generation,
move application, terminal detection, position hashing) is an external
collaborator of the search core and is therefore abstracted as a
GameOracle structure.  The search, cache, move ordering, evaluation
tables and quiescence code of the repository are embedded faithfully,
function by function.  Machine integers (i32) are modelled as Int with
the explicit constants I32_MIN and I32_MAX; no arithmetic in the
embedded code paths wraps around.
-/

namespace StockWishVerify

/-- Lower bound of the i32 range, the value of i32::MIN. -/
def I32_MIN : Int := -2147483648

/-- Upper bound of the i32 range, the value of i32::MAX. -/
def I32_MAX : Int := 2147483647

/-- Side to move, mirroring chess::Color. -/
inductive Color where
  | white : Color
  | black : Color
deriving DecidableEq

/-- A chess move, abstracted to a source and a destination square index.
Promotions play no role in any verified property, so they are omitted
from the abstraction of chess::ChessMove. -/
structure Move where
  src : Nat
  dst : Nat
deriving DecidableEq

/-- The Score enum of cache.rs: an exact value or a one-sided bound. -/
inductive Score where
  | Exact : Int → Score
  | UpperBound : Int → Score
  | LowerBound : Int → Score
deriving DecidableEq

/-- The From Score for i32 conversion of cache.rs: drop the tag. -/
def Score.toInt : Score → Int
  | Score.Exact v => v
  | Score.UpperBound v => v
  | Score.LowerBound v => v

/-- The Neg implementation of cache.rs: negate the value and flip the
bound direction. -/
def Score.neg : Score → Score
  | Score.Exact v => Score.Exact (-v)
  | Score.UpperBound v => Score.LowerBound (-v)
  | Score.LowerBound v => Score.UpperBound (-v)

instance : Neg Score := ⟨Score.neg⟩

/-- Abstraction of the external rules engine consumed by the search
core.  Positions are identified by naturals.  The fields mirror the
chess crate operations used by the repository: side to move, legal move
enumeration, move application, the position hash, and the occupancy
bitboards (modelled as lists of destination squares).  rawScore stands
for raw_board_score of evaluation.rs with the calibration baked in, and
quiesceMoves stands for moves_toward_quiescence of move_ordering.rs,
which is called by evaluation.rs but absent from the sources. -/
structure GameOracle where
  sideToMove : Nat → Color
  legalMoves : Nat → List Move
  apply : Nat → Move → Nat
  hash : Nat → Nat
  rawScore : Nat → Int
  quiesceMoves : Nat → List Move
  opponentSquares : Nat → List Nat
  ownSquares : Nat → List Nat

/-! ### Transposition cache (cache.rs) -/

/-- The CacheData record of cache.rs.  In stockwishbot/stockwish.rs the
targets field is consumed as a bitboard of preferred destination
squares, modelled here as a list of squares. -/
structure CacheData where
  depth : Int
  score : Score
  targets : List Nat
deriving DecidableEq

/-- The SWCache map from position hash to CacheData, modelled as an
association list whose first binding for a key is the current one.  The
LRU size bound of hashlru is a memory mechanism only and is not
modelled. -/
def SWCache : Type := List (Nat × CacheData)

instance : DecidableEq SWCache := by
  unfold SWCache
  infer_instance

/-- Lookup in the cache, first binding wins (hashlru get). -/
def cacheGet : SWCache → Nat → Option CacheData
  | [], _ => none
  | (k, d) :: rest, h => if k = h then some d else cacheGet rest h

/-- Unconditional insert (hashlru insert): the new binding shadows any
existing binding for the same hash. -/
def cacheInsert (c : SWCache) (h : Nat) (d : CacheData) : SWCache :=
  (h, d) :: c

/-- The insert_in_cache_if_better function of cache.rs: insert when
absent; when present, overwrite only when the new depth is strictly
greater than the stored depth. -/
def insert_in_cache_if_better (G : GameOracle) (pos : Nat) (depth : Int)
    (score : Score) (targets : List Nat) (cache : SWCache) : SWCache :=
  match cacheGet cache (G.hash pos) with
  | some cached =>
      if depth > cached.depth then
        cacheInsert cache (G.hash pos) ⟨depth, score, targets⟩
      else
        cache
  | none => cacheInsert cache (G.hash pos) ⟨depth, score, targets⟩

/-! ### TopTargets (cache.rs) -/

/-- The TopTargets collection of cache.rs: a capacity bounded vector of
scored moves. -/
structure TopTargets where
  moves : List (Int × Move)
  max_size : Nat
deriving DecidableEq

/-- TopTargets::new of cache.rs. -/
def TopTargets.new (max_size : Nat) : TopTargets :=
  ⟨[], max_size⟩

/-- TopTargets::try_insert of cache.rs.  When the vector is not full the
pair is pushed.  When full, the code finds the FIRST entry whose score
is below the new score, pushes the new pair and swap_removes that index;
the net effect of push plus swap_remove is replacing that index with the
new pair. -/
def TopTargets.try_insert (t : TopTargets) (score : Int) (m : Move) : TopTargets :=
  if t.moves.length < t.max_size then
    { t with moves := t.moves ++ [(score, m)] }
  else
    match t.moves.findIdx? (fun x => decide (x.fst < score)) with
    | some idx => { t with moves := t.moves.set idx (score, m) }
    | none => t

/-- Stable ascending insertion used to model the stable sort of
itertools sorted_by in TopTargets::ordered_moves. -/
def insertAsc (x : Int × Move) : List (Int × Move) → List (Int × Move)
  | [] => [x]
  | y :: ys => if x.fst ≤ y.fst then x :: y :: ys else y :: insertAsc x ys

/-- Stable ascending sort by score. -/
def sortAsc : List (Int × Move) → List (Int × Move)
  | [] => []
  | x :: xs => insertAsc x (sortAsc xs)

/-- TopTargets::ordered_moves of cache.rs: the retained moves sorted by
ascending score (the consumer pops from the end, so the popping order is
descending). -/
def TopTargets.ordered_moves (t : TopTargets) : List Move :=
  (sortAsc t.moves).map Prod.snd

/-- Modelled from the spec: TopTargets::targets is called by
move_ordering.rs and stockwish.rs but is missing from the sources.  Per
the comment in cache.rs the collection provides a bitboard for use in
move ordering, so the model returns the destination squares of the
retained moves. -/
def TopTargets.targets (t : TopTargets) : List Nat :=
  t.moves.map (fun x => x.snd.dst)

/-! ### Piece square tables (evaluation.rs) -/

/-- A 64 entry piece square table, row major from a1 (index 0). -/
structure PieceSquareTable where
  cells : List Int
deriving DecidableEq

/-- PieceSquareTable::new of evaluation.rs: every raw entry v becomes
offset * offset_scale + scale * v. -/
def PieceSquareTable.new (offset offset_scale scale : Int) (vals : List Int) :
    PieceSquareTable :=
  ⟨vals.map (fun v => offset * offset_scale + scale * v)⟩

/-- PieceSquareTable::change_color of evaluation.rs, transcribed index
by index.  The first seven output chunks reverse the input chunks; the
final chunk as written in the source reads cells 0, 57, 58, 59, 60, 61,
62 and 57. -/
def PieceSquareTable.change_color (t : PieceSquareTable) : PieceSquareTable :=
  let g : Nat → Int := fun i => t.cells.getD i 0
  ⟨[g 56, g 57, g 58, g 59, g 60, g 61, g 62, g 63,
    g 48, g 49, g 50, g 51, g 52, g 53, g 54, g 55,
    g 40, g 41, g 42, g 43, g 44, g 45, g 46, g 47,
    g 32, g 33, g 34, g 35, g 36, g 37, g 38, g 39,
    g 24, g 25, g 26, g 27, g 28, g 29, g 30, g 31,
    g 16, g 17, g 18, g 19, g 20, g 21, g 22, g 23,
    g 8, g 9, g 10, g 11, g 12, g 13, g 14, g 15,
    g 0, g 57, g 58, g 59, g 60, g 61, g 62, g 57]⟩

/-- The PAWN_VALUE constant of evaluation.rs. -/
def PAWN_VALUE : Int := 100

/-- The KNIGHT_VALUE constant of evaluation.rs. -/
def KNIGHT_VALUE : Int := 320

/-- The PIECE_VALUE_SCALE constant of evaluation.rs. -/
def PIECE_VALUE_SCALE : Int := 12

/-- The POSITIONAL_SCALE constant of evaluation.rs. -/
def POSITIONAL_SCALE : Int := 1

/-- The WHITE_PAWN table of evaluation.rs. -/
def WHITE_PAWN : PieceSquareTable :=
  PieceSquareTable.new PAWN_VALUE PIECE_VALUE_SCALE POSITIONAL_SCALE
    [0, 0, 0, 0, 0, 0, 0, 0,
     50, 50, 50, 50, 50, 50, 50, 50,
     10, 10, 20, 30, 30, 20, 10, 10,
     5, 5, 10, 25, 25, 10, 5, 5,
     0, 0, 0, 20, 20, 0, 0, 0,
     5, -5, -10, 0, 0, -10, -5, 5,
     5, 10, 10, -20, -20, 10, 10, 5,
     0, 0, 0, 0, 0, 0, 0, 0]

/-- The WHITE_KNIGHT table of evaluation.rs. -/
def WHITE_KNIGHT : PieceSquareTable :=
  PieceSquareTable.new KNIGHT_VALUE PIECE_VALUE_SCALE POSITIONAL_SCALE
    [-50, -40, -30, -30, -30, -30, -40, -50,
     -40, -20, 0, 0, 0, 0, -20, -40,
     -30, 0, 10, 15, 15, 10, 0, -30,
     -30, 5, 15, 20, 20, 15, 5, -30,
     -30, 0, 15, 20, 20, 15, 0, -30,
     -30, 5, 10, 15, 15, 10, 5, -30,
     -40, -20, 0, 5, 5, 0, -20, -40,
     -50, -40, -30, -30, -30, -30, -40, -50]

/-- The BLACK_PAWN table of evaluation.rs. -/
def BLACK_PAWN : PieceSquareTable := WHITE_PAWN.change_color

/-- The BLACK_KNIGHT table of evaluation.rs. -/
def BLACK_KNIGHT : PieceSquareTable := WHITE_KNIGHT.change_color

/-! ### Move ordering (move_ordering.rs) -/

/-- MoveOrder::new of move_ordering.rs, flattened to the move sequence
the iterator yields: legal moves whose destination is an opposing piece
first (the captures movegen mask), then all remaining legal moves (the
complementary mask). -/
def MoveOrder.new (G : GameOracle) (pos : Nat) : List Move :=
  let isCapture : Move → Bool := fun m => (G.opponentSquares pos).contains m.dst
  (G.legalMoves pos).filter isCapture ++
    (G.legalMoves pos).filter (fun m => !(isCapture m))

/-- MoveOrder::new_with_hint of move_ordering.rs, flattened to the move
sequence the iterator yields: the hinted moves (popped from the end of
ordered_moves, hence reversed) first, then the captures movegen whose
mask removes the hinted destination squares, then the remaining movegen
whose mask also removes the hinted destination squares. -/
def MoveOrder.new_with_hint (G : GameOracle) (pos : Nat) (tt : TopTargets) :
    List Move :=
  let tb := tt.targets
  let enemy := G.opponentSquares pos
  let legal := G.legalMoves pos
  tt.ordered_moves.reverse ++
    legal.filter (fun m => enemy.contains m.dst && !(tb.contains m.dst)) ++
    legal.filter (fun m => !(enemy.contains m.dst) && !(tb.contains m.dst))

/-- The local MoveOrder::new of stockwishbot/stockwish.rs: captures
stage (destination on an opposing piece) first, then the remaining legal
moves via the full mask. -/
def MoveOrderSW.new (G : GameOracle) (pos : Nat) : List Move :=
  let isCapture : Move → Bool := fun m => (G.opponentSquares pos).contains m.dst
  (G.legalMoves pos).filter isCapture ++
    (G.legalMoves pos).filter (fun m => !(isCapture m))

/-- The local MoveOrder::new_from_preferred_targets of
stockwishbot/stockwish.rs: hints stage (destination in the preferred
targets bitboard), then a captures stage whose mask as written in the
source is the squares of the side to move (own pieces), then the
remaining moves. -/
def MoveOrderSW.new_from_preferred_targets (G : GameOracle) (pos : Nat)
    (targets : List Nat) : List Move :=
  let legal := G.legalMoves pos
  let own := G.ownSquares pos
  legal.filter (fun m => targets.contains m.dst) ++
    legal.filter (fun m => own.contains m.dst && !(targets.contains m.dst)) ++
    legal.filter (fun m => !(own.contains m.dst) && !(targets.contains m.dst))

/-! ### Quiescence search (evaluation.rs) -/

/-- The capture loop of quiescent_alpha_beta in evaluation.rs.  The
recursive call is abstracted as the recur argument so that the loop is
structurally recursive on the move list; the score of each child is
negated as a Score (flipping the bound) and then converted to an
integer, exactly as the source does. -/
def quiesceLoopF (G : GameOracle) (recur : Nat → Int → Int → Option Score)
    (pos : Nat) (beta : Int) : List Move → Int → Option Score
  | [], alpha => some (Score.Exact alpha)
  | m :: ms, alpha =>
    match recur (G.apply pos m) (-beta) (-alpha) with
    | none => none
    | some cs =>
      let childNum := (Score.neg cs).toInt
      if beta ≤ childNum then some (Score.LowerBound childNum)
      else quiesceLoopF G recur pos beta ms (max alpha childNum)

/-- The quiescent_alpha_beta function of evaluation.rs, with a fuel
argument bounding the recursion depth (none signals exhausted fuel). -/
def quiescent_alpha_beta (G : GameOracle) : Nat → Nat → Int → Int → Option Score
  | 0, _, _, _ => none
  | Nat.succ fuel, pos, a0, beta =>
    let eval := G.rawScore pos
    if beta ≤ eval then some (Score.LowerBound eval)
    else
      quiesceLoopF G (fun p a b => quiescent_alpha_beta G fuel p a b) pos beta
        (G.quiesceMoves pos) (max a0 eval)

/-- The quiescent_board_score function of evaluation.rs: run the
quiescent search, store the result at depth 0 through
insert_in_cache_if_better with an empty TopTargets, and return the
numeric score. -/
def quiescent_board_score (G : GameOracle) (fuel : Nat) (pos : Nat)
    (alpha beta : Int) (cache : SWCache) : Option (Int × SWCache) :=
  (quiescent_alpha_beta G fuel pos alpha beta).map
    (fun score => (score.toInt, insert_in_cache_if_better G pos 0 score [] cache))

/-! ### Negamax search (stockwishbot/stockwish.rs) -/

/-- The move loop of negamax_alpha_beta_cache in
stockwishbot/stockwish.rs.  The recursive call on a child position is
abstracted as the recur argument.  White maximizes, raises alpha, and on
beta strictly below the best value stores a LowerBound entry at the
remaining depth and returns it; Black minimizes, lowers beta, and on the
best value strictly below alpha stores and returns an UpperBound entry.
After the last move the Exact best value is stored and returned. -/
def negamaxLoopF (G : GameOracle)
    (recur : Nat → Int → Int → SWCache → Option (Score × SWCache))
    (pos : Nat) (rd : Int) :
    List Move → Color → Int → Int → Int → TopTargets → SWCache →
      Option (Score × SWCache)
  | [], _, best, _, _, tt, cache =>
      some (Score.Exact best,
        cacheInsert cache (G.hash pos) ⟨rd, Score.Exact best, tt.targets⟩)
  | m :: ms, side, best, alpha, beta, tt, cache =>
    match recur (G.apply pos m) alpha beta cache with
    | none => none
    | some (cs, cache1) =>
      let child := cs.toInt
      let tt1 := tt.try_insert child m
      match side with
      | Color.white =>
        let best1 := max best child
        let alpha1 := max alpha best1
        if beta < best1 then
          some (Score.LowerBound best1,
            cacheInsert cache1 (G.hash pos) ⟨rd, Score.LowerBound best1, tt1.targets⟩)
        else
          negamaxLoopF G recur pos rd ms Color.white best1 alpha1 beta tt1 cache1
      | Color.black =>
        let best1 := min best child
        let beta1 := min beta best1
        if best1 < alpha then
          some (Score.UpperBound best1,
            cacheInsert cache1 (G.hash pos) ⟨rd, Score.UpperBound best1, tt1.targets⟩)
        else
          negamaxLoopF G recur pos rd ms Color.black best1 alpha beta1 tt1 cache1

/-- The valid_moves computation of negamax_alpha_beta_cache: the hinted
move order when the probe supplied preferred targets, the plain move
order otherwise. -/
def validMovesOf (G : GameOracle) (pos : Nat) (pref : Option (List Nat)) :
    List Move :=
  match pref with
  | some t => MoveOrderSW.new_from_preferred_targets G pos t
  | none => MoveOrderSW.new G pos

/-- The initial best value of negamax_alpha_beta_cache: the extreme
value of the maximizing or minimizing side. -/
def bestInit : Color → Int
  | Color.white => I32_MIN
  | Color.black => I32_MAX

/-- The body of negamax_alpha_beta_cache after the cache probe.  At
remaining depth 0 the node is a leaf and quiescent_board_score is
called; the source call site passes no window (the signatures of the two
files disagree), so the window of that call is modelled from the spec as
the full i32 window.  Otherwise the moves are generated (with the hint
stage when the probe supplied preferred targets), a position without
legal moves returns Exact rawScore directly, and otherwise the move loop
runs from the extreme initial best value of the side to move. -/
def negamaxBody (G : GameOracle)
    (recur : Nat → Int → Int → SWCache → Option (Score × SWCache))
    (qfuel : Nat) (pos : Nat) (rd : Int) (a0 b0 : Int) (cache : SWCache)
    (pref : Option (List Nat)) : Option (Score × SWCache) :=
  if rd = 0 then
    (quiescent_board_score G qfuel pos I32_MIN I32_MAX cache).map
      (fun vc => (Score.Exact vc.fst, vc.snd))
  else
    if (validMovesOf G pos pref).length = 0 then
      some (Score.Exact (G.rawScore pos), cache)
    else
      negamaxLoopF G recur pos rd (validMovesOf G pos pref) (G.sideToMove pos)
        (bestInit (G.sideToMove pos)) a0 b0 (TopTargets.new 5) cache

/-- The negamax_alpha_beta_cache function of stockwishbot/stockwish.rs,
with a fuel argument bounding the recursion depth.  The cache probe
returns the stored score whenever the stored depth is at least the
remaining depth; an entry of insufficient depth only contributes its
targets to move ordering. -/
def negamax_alpha_beta_cache (G : GameOracle) :
    Nat → Nat → Int → Int → Int → SWCache → Option (Score × SWCache)
  | 0, _, _, _, _, _ => none
  | Nat.succ fuel, pos, rd, a0, b0, cache =>
    match cacheGet cache (G.hash pos) with
    | some ce =>
      if ce.depth ≥ rd then some (ce.score, cache)
      else
        negamaxBody G (fun p a b c => negamax_alpha_beta_cache G fuel p (rd - 1) a b c)
          fuel pos rd a0 b0 cache (some ce.targets)
    | none =>
      negamaxBody G (fun p a b c => negamax_alpha_beta_cache G fuel p (rd - 1) a b c)
        fuel pos rd a0 b0 cache none

/-! ### Driver (stockwishbot/stockwish.rs, best_next_move_at_depth) -/

/-- The Iterator::min_by_key behavior of Rust: among equal minimal keys
the first element is kept. -/
def minByKeyFirst (l : List (Move × Int)) : Option Move :=
  (List.foldl (fun acc y =>
    match acc with
    | none => some y
    | some b => if y.snd < b.snd then some y else some b) none l).map Prod.fst

/-- The Iterator::max_by_key behavior of Rust: among equal maximal keys
the last element is kept. -/
def maxByKeyLast (l : List (Move × Int)) : Option Move :=
  (List.foldl (fun acc y =>
    match acc with
    | none => some y
    | some b => if b.snd ≤ y.snd then some y else some b) none l).map Prod.fst

/-- The closure named algorithm in best_next_move_at_depth: score every
root move by running negamax_alpha_beta_cache on the child position with
the full window, threading the engine cache through the calls in move
order. -/
def scoreMoves (G : GameOracle) (fuel : Nat) (depth : Int) (pos : Nat) :
    List Move → SWCache → Option (List (Move × Int) × SWCache)
  | [], cache => some ([], cache)
  | m :: ms, cache =>
    match negamax_alpha_beta_cache G fuel (G.apply pos m) depth I32_MIN I32_MAX cache with
    | none => none
    | some (s, cache1) =>
      match scoreMoves G fuel depth pos ms cache1 with
      | none => none
      | some (rest, cache2) => some ((m, s.toInt) :: rest, cache2)

/-- The best_next_move_at_depth method of stockwishbot/stockwish.rs.
Black takes the move minimizing the child score, White the move
maximizing it.  The source then prints the chosen move by calling unwrap
on the option twice, so when there is no legal move the function panics
(modelled as Except.error) instead of returning the None value. -/
def best_next_move_at_depth (G : GameOracle) (fuel : Nat) (pos : Nat)
    (depth : Int) (cache : SWCache) : Option (Except Unit (Move × SWCache)) :=
  match scoreMoves G fuel depth pos (MoveOrderSW.new G pos) cache with
  | none => none
  | some (scored, cache1) =>
    let best :=
      match G.sideToMove pos with
      | Color.black => minByKeyFirst scored
      | Color.white => maxByKeyLast scored
    match best with
    | none => some (Except.error ())
    | some m => some (Except.ok (m, cache1))

/-! ### Definitions following the claim wording, for comparison with the
source embedding -/

/-- Modelled from the claim C1 wording: the expansion loop of a negamax
search.  Each child is searched with the negated and swapped window, the
child result is negated before comparison, the best value and alpha are
raised, and a cutoff fires already at bestValue greater than or equal to
beta, storing and returning LowerBound bestValue. -/
def negamaxClaimLoopF (G : GameOracle)
    (recur : Nat → Int → Int → SWCache → Option (Score × SWCache))
    (pos : Nat) (rd : Int) :
    List Move → Int → Int → Int → TopTargets → SWCache →
      Option (Score × SWCache)
  | [], best, _, _, tt, cache =>
      some (Score.Exact best,
        cacheInsert cache (G.hash pos) ⟨rd, Score.Exact best, tt.targets⟩)
  | m :: ms, best, alpha, beta, tt, cache =>
    match recur (G.apply pos m) (-beta) (-alpha) cache with
    | none => none
    | some (cs, cache1) =>
      let child := -(cs.toInt)
      let tt1 := tt.try_insert child m
      let best1 := max best child
      let alpha1 := max alpha best1
      if beta ≤ best1 then
        some (Score.LowerBound best1,
          cacheInsert cache1 (G.hash pos) ⟨rd, Score.LowerBound best1, tt1.targets⟩)
      else negamaxClaimLoopF G recur pos rd ms best1 alpha1 beta tt1 cache1

/-- Modelled from the claim C1 wording: the search with the expansion
step replaced by the claimed negamax expansion (window negated and
swapped, child result negated, cutoff at bestValue at least beta,
initial best value the representable minimum); probe and leaf handling
are kept identical to the source so that only the expansion differs. -/
def negamaxClaimC1 (G : GameOracle) :
    Nat → Nat → Int → Int → Int → SWCache → Option (Score × SWCache)
  | 0, _, _, _, _, _ => none
  | Nat.succ fuel, pos, rd, a0, b0, cache =>
    let body := fun (pref : Option (List Nat)) =>
      if rd = 0 then
        (quiescent_board_score G fuel pos I32_MIN I32_MAX cache).map
          (fun vc => (Score.Exact vc.fst, vc.snd))
      else
        if (validMovesOf G pos pref).length = 0 then
          some (Score.Exact (G.rawScore pos), cache)
        else
          negamaxClaimLoopF G
            (fun p a b c => negamaxClaimC1 G fuel p (rd - 1) a b c)
            pos rd (validMovesOf G pos pref) I32_MIN a0 b0 (TopTargets.new 5) cache
    match cacheGet cache (G.hash pos) with
    | some ce =>
      if ce.depth ≥ rd then some (ce.score, cache)
      else body (some ce.targets)
    | none => body none

/-- Modelled from the claim C2 wording: the search with the cache probe
replaced by the claimed probe.  At sufficient stored depth an Exact
score is returned immediately, a LowerBound only raises alpha and an
UpperBound only lowers beta, with the search then continuing; the rest
of the function is kept identical to the source. -/
def negamaxClaimC2 (G : GameOracle) :
    Nat → Nat → Int → Int → Int → SWCache → Option (Score × SWCache)
  | 0, _, _, _, _, _ => none
  | Nat.succ fuel, pos, rd, a0, b0, cache =>
    let recur := fun p a b c => negamaxClaimC2 G fuel p (rd - 1) a b c
    match cacheGet cache (G.hash pos) with
    | some ce =>
      if ce.depth ≥ rd then
        match ce.score with
        | Score.Exact v => some (Score.Exact v, cache)
        | Score.LowerBound v =>
            negamaxBody G recur fuel pos rd (max a0 v) b0 cache none
        | Score.UpperBound v =>
            negamaxBody G recur fuel pos rd a0 (min b0 v) cache none
      else negamaxBody G recur fuel pos rd a0 b0 cache (some ce.targets)
    | none => negamaxBody G recur fuel pos rd a0 b0 cache none

/-- Modelled from the claim C5 wording: checkmate distance discounting
nudges a value within 100 of the extreme representable values by one
unit toward zero. -/
def discountClaim (v : Int) : Int :=
  if v ≤ I32_MIN + 100 then v + 1
  else if I32_MAX - 100 ≤ v then v - 1
  else v

/-- Modelled from the claim C10 wording: the capture loop of the
quiescence search as the specification describes it, negating the child
result numerically, returning LowerBound childScore as soon as beta is
at most the child score and otherwise raising alpha to it. -/
def quiesceClaimLoopF (G : GameOracle) (recur : Nat → Int → Int → Option Score)
    (pos : Nat) (beta : Int) : List Move → Int → Option Score
  | [], alpha => some (Score.Exact alpha)
  | m :: ms, alpha =>
    match recur (G.apply pos m) (-beta) (-alpha) with
    | none => none
    | some s =>
      if beta ≤ -s.toInt then some (Score.LowerBound (-s.toInt))
      else quiesceClaimLoopF G recur pos beta ms (max alpha (-s.toInt))

/-- Modelled from the claim C10 wording: quiesce first computes the
stand pat score, returns LowerBound standPat when beta is at most it,
otherwise raises alpha to the stand pat score, searches the captures
with the negated swapped window, and returns Exact alpha after
exhausting them. -/
def quiesceClaim (G : GameOracle) : Nat → Nat → Int → Int → Option Score
  | 0, _, _, _ => none
  | Nat.succ fuel, pos, alpha, beta =>
    let standPat := G.rawScore pos
    if beta ≤ standPat then some (Score.LowerBound standPat)
    else
      quiesceClaimLoopF G (fun p a b => quiesceClaim G fuel p a b) pos beta
        (G.quiesceMoves pos) (max alpha standPat)

/-! ### Concrete oracles used as inputs -/

/-- A two position game: position 0 (White to move) has the single move
to position 1, which has no moves.  The raw score of position 0 is w and
of position 1 is v.  The hash is the identity and there are no
quiescence moves anywhere. -/
def chainOracle (w v : Int) : GameOracle where
  sideToMove := fun _ => Color.white
  legalMoves := fun p => if p = 0 then [⟨0, 1⟩] else []
  apply := fun _ _ => 1
  hash := fun p => p
  rawScore := fun p => if p = 0 then w else v
  quiesceMoves := fun _ => []
  opponentSquares := fun _ => []
  ownSquares := fun _ => []

/-- The chainOracle game with Black to move everywhere. -/
def chainOracleB (w v : Int) : GameOracle where
  sideToMove := fun _ => Color.black
  legalMoves := fun p => if p = 0 then [⟨0, 1⟩] else []
  apply := fun _ _ => 1
  hash := fun p => p
  rawScore := fun p => if p = 0 then w else v
  quiesceMoves := fun _ => []
  opponentSquares := fun _ => []
  ownSquares := fun _ => []

/-- A game whose every position has no legal moves. -/
def emptyOracle : GameOracle where
  sideToMove := fun _ => Color.white
  legalMoves := fun _ => []
  apply := fun _ _ => 0
  hash := fun p => p
  rawScore := fun _ => 3
  quiesceMoves := fun _ => []
  opponentSquares := fun _ => []
  ownSquares := fun _ => []

/-- A position with two legal moves that share the destination square 9,
occupied by an opposing piece. -/
def hintedOracle : GameOracle where
  sideToMove := fun _ => Color.white
  legalMoves := fun p => if p = 0 then [⟨0, 9⟩, ⟨1, 9⟩] else []
  apply := fun _ _ => 1
  hash := fun p => p
  rawScore := fun _ => 0
  quiesceMoves := fun _ => []
  opponentSquares := fun p => if p = 0 then [9] else []
  ownSquares := fun _ => []

/-- A hint collection retaining the first of the two legal moves of
hintedOracle. -/
def hintTT : TopTargets := ⟨[(5, ⟨0, 9⟩)], 5⟩

/-! ### Helper lemmas -/

/-- One step unfolding of the search at a successor fuel value. -/
theorem negamax_succ (G : GameOracle) (fuel pos : Nat) (rd a0 b0 : Int)
    (cache : SWCache) :
    negamax_alpha_beta_cache G (Nat.succ fuel) pos rd a0 b0 cache =
      match cacheGet cache (G.hash pos) with
      | some ce =>
        if ce.depth ≥ rd then some (ce.score, cache)
        else
          negamaxBody G (fun p a b c => negamax_alpha_beta_cache G fuel p (rd - 1) a b c)
            fuel pos rd a0 b0 cache (some ce.targets)
      | none =>
        negamaxBody G (fun p a b c => negamax_alpha_beta_cache G fuel p (rd - 1) a b c)
          fuel pos rd a0 b0 cache none := rfl

/-! ### Cache depth monotonicity -/

/-- Between two cache states every stored depth is preserved or grows. -/
def cacheMono (c c' : SWCache) : Prop :=
  ∀ h e, cacheGet c h = some e → ∃ e', cacheGet c' h = some e' ∧ e.depth ≤ e'.depth

/-- Every entry of the later state is either an unchanged entry of the
earlier state or has depth at most d. -/
def cacheBnd (d : Int) (c c' : SWCache) : Prop :=
  ∀ h e', cacheGet c' h = some e' → cacheGet c h = some e' ∨ e'.depth ≤ d

theorem cacheMono_refl (c : SWCache) : cacheMono c c :=
  fun _ e hg => ⟨e, hg, le_refl _⟩

theorem cacheMono_trans {c1 c2 c3 : SWCache} (h12 : cacheMono c1 c2)
    (h23 : cacheMono c2 c3) : cacheMono c1 c3 := by
  intro h e hg
  obtain ⟨e2, hg2, hd2⟩ := h12 h e hg
  obtain ⟨e3, hg3, hd3⟩ := h23 h e2 hg2
  exact ⟨e3, hg3, le_trans hd2 hd3⟩

theorem cacheBnd_refl (d : Int) (c : SWCache) : cacheBnd d c c :=
  fun _ _ hg => Or.inl hg

theorem cacheBnd_trans {d : Int} {c1 c2 c3 : SWCache} (h12 : cacheBnd d c1 c2)
    (h23 : cacheBnd d c2 c3) : cacheBnd d c1 c3 := by
  intro h e' hg
  rcases h23 h e' hg with h2 | hle
  · exact h12 h e' h2
  · exact Or.inr hle

theorem cacheBnd_weaken {d d' : Int} {c c' : SWCache} (hdd : d ≤ d')
    (hb : cacheBnd d c c') : cacheBnd d' c c' := by
  intro h e' hg
  rcases hb h e' hg with h2 | hle
  · exact Or.inl h2
  · exact Or.inr (le_trans hle hdd)

theorem cacheGet_insert_self (c : SWCache) (h : Nat) (e : CacheData) :
    cacheGet (cacheInsert c h e) h = some e := by
  simp [cacheInsert, cacheGet]

theorem cacheGet_insert_ne (c : SWCache) (h h' : Nat) (e : CacheData)
    (hne : h ≠ h') : cacheGet (cacheInsert c h e) h' = cacheGet c h' := by
  simp [cacheInsert, cacheGet, hne]

theorem cacheMono_insert {c : SWCache} {h : Nat} {e : CacheData}
    (hold : ∀ e0, cacheGet c h = some e0 → e0.depth ≤ e.depth) :
    cacheMono c (cacheInsert c h e) := by
  intro h' e0 hg
  by_cases hh : h = h'
  · subst hh
    exact ⟨e, cacheGet_insert_self c h e, hold e0 hg⟩
  · refine ⟨e0, ?_, le_refl _⟩
    rwa [cacheGet_insert_ne c h h' e hh]

theorem cacheBnd_insert {d : Int} {c : SWCache} {h : Nat} {e : CacheData}
    (hd : e.depth ≤ d) : cacheBnd d c (cacheInsert c h e) := by
  intro h' e' hg
  by_cases hh : h = h'
  · subst hh
    rw [cacheGet_insert_self] at hg
    obtain rfl := Option.some.inj hg
    exact Or.inr hd
  · rw [cacheGet_insert_ne c h h' e hh] at hg
    exact Or.inl hg

/-- insert_in_cache_if_better never decreases a stored depth. -/
theorem iicb_mono (G : GameOracle) (pos : Nat) (d : Int) (s : Score)
    (t : List Nat) (c : SWCache) :
    cacheMono c (insert_in_cache_if_better G pos d s t c) := by
  cases hg : cacheGet c (G.hash pos) with
  | none =>
    simp only [insert_in_cache_if_better, hg]
    exact cacheMono_insert (fun e0 h0 => by rw [hg] at h0; cases h0)
  | some cached =>
    simp only [insert_in_cache_if_better, hg]
    by_cases hd : d > cached.depth
    · rw [if_pos hd]
      refine cacheMono_insert (fun e0 h0 => ?_)
      rw [hg] at h0
      obtain rfl := Option.some.inj h0
      exact le_of_lt hd
    · rw [if_neg hd]
      exact cacheMono_refl c

/-- insert_in_cache_if_better touches nothing beyond depth d. -/
theorem iicb_bnd (G : GameOracle) (pos : Nat) (d : Int) (s : Score)
    (t : List Nat) (c : SWCache) :
    cacheBnd d c (insert_in_cache_if_better G pos d s t c) := by
  cases hg : cacheGet c (G.hash pos) with
  | none =>
    simp only [insert_in_cache_if_better, hg]
    exact cacheBnd_insert (le_refl d)
  | some cached =>
    simp only [insert_in_cache_if_better, hg]
    by_cases hd : d > cached.depth
    · rw [if_pos hd]
      exact cacheBnd_insert (le_refl d)
    · rw [if_neg hd]
      exact cacheBnd_refl d c

/-- insert_in_cache_if_better keeps the existing entry whenever the new
depth does not exceed the stored depth, in particular on equal depth. -/
theorem iicb_keep (G : GameOracle) (pos : Nat) (d : Int) (s : Score)
    (t : List Nat) (c : SWCache) (e : CacheData)
    (hg : cacheGet c (G.hash pos) = some e) (hd : d ≤ e.depth) :
    insert_in_cache_if_better G pos d s t c = c := by
  simp only [insert_in_cache_if_better, hg]
  rw [if_neg (not_lt.mpr hd)]

/-- The move loop preserves cache depth monotonicity and only writes
entries at depth rd, provided the recursive calls do so one level lower
and the entry of the current node, if present, is shallower than rd. -/
theorem negamaxLoopF_mono (G : GameOracle)
    (recur : Nat → Int → Int → SWCache → Option (Score × SWCache))
    (pos : Nat) (rd : Int)
    (hrec : ∀ p a b c s c', recur p a b c = some (s, c') →
      cacheMono c c' ∧ cacheBnd (rd - 1) c c') :
    ∀ (moves : List Move) (side : Color) (best alpha beta : Int)
      (tt : TopTargets) (c : SWCache) (s : Score) (c' : SWCache),
      (∀ e, cacheGet c (G.hash pos) = some e → e.depth < rd) →
      negamaxLoopF G recur pos rd moves side best alpha beta tt c = some (s, c') →
      cacheMono c c' ∧ cacheBnd rd c c' := by
  intro moves
  induction moves with
  | nil =>
    intro side best alpha beta tt c s c' hInv heq
    simp only [negamaxLoopF, Option.some.injEq, Prod.mk.injEq] at heq
    obtain ⟨rfl, rfl⟩ := heq
    exact ⟨cacheMono_insert (fun e0 hg0 => le_of_lt (hInv e0 hg0)),
      cacheBnd_insert (le_refl rd)⟩
  | cons m rest ih =>
    intro side best alpha beta tt c s c' hInv heq
    cases hcall : recur (G.apply pos m) alpha beta c with
    | none =>
      simp only [negamaxLoopF, hcall] at heq
      cases heq
    | some pr =>
      obtain ⟨cs, c1⟩ := pr
      simp only [negamaxLoopF, hcall] at heq
      obtain ⟨hm1, hb1⟩ := hrec _ _ _ _ _ _ hcall
      have hInv1 : ∀ e, cacheGet c1 (G.hash pos) = some e → e.depth < rd := by
        intro e hg
        rcases hb1 _ _ hg with h2 | hle
        · exact hInv e h2
        · omega
      cases side with
      | white =>
        by_cases hcut : beta < max best cs.toInt
        · rw [if_pos hcut] at heq
          simp only [Option.some.injEq, Prod.mk.injEq] at heq
          obtain ⟨rfl, rfl⟩ := heq
          refine ⟨cacheMono_trans hm1
            (cacheMono_insert (fun e0 hg0 => le_of_lt (hInv1 e0 hg0))), ?_⟩
          exact cacheBnd_trans (cacheBnd_weaken (by omega) hb1)
            (cacheBnd_insert (le_refl rd))
        · rw [if_neg hcut] at heq
          obtain ⟨hm2, hb2⟩ := ih Color.white (max best cs.toInt)
            (max alpha (max best cs.toInt)) beta (tt.try_insert cs.toInt m) c1 s c'
            hInv1 heq
          exact ⟨cacheMono_trans hm1 hm2,
            cacheBnd_trans (cacheBnd_weaken (by omega) hb1) hb2⟩
      | black =>
        by_cases hcut : min best cs.toInt < alpha
        · rw [if_pos hcut] at heq
          simp only [Option.some.injEq, Prod.mk.injEq] at heq
          obtain ⟨rfl, rfl⟩ := heq
          refine ⟨cacheMono_trans hm1
            (cacheMono_insert (fun e0 hg0 => le_of_lt (hInv1 e0 hg0))), ?_⟩
          exact cacheBnd_trans (cacheBnd_weaken (by omega) hb1)
            (cacheBnd_insert (le_refl rd))
        · rw [if_neg hcut] at heq
          obtain ⟨hm2, hb2⟩ := ih Color.black (min best cs.toInt) alpha
            (min beta (min best cs.toInt)) (tt.try_insert cs.toInt m) c1 s c'
            hInv1 heq
          exact ⟨cacheMono_trans hm1 hm2,
            cacheBnd_trans (cacheBnd_weaken (by omega) hb1) hb2⟩

/-- The body preserves cache depth monotonicity and only writes entries
at depth at most rd, under the same conditions. -/
theorem negamaxBody_mono (G : GameOracle)
    (recur : Nat → Int → Int → SWCache → Option (Score × SWCache))
    (qfuel : Nat) (pos : Nat) (rd a0 b0 : Int) (c : SWCache)
    (pref : Option (List Nat))
    (hrec : ∀ p a b c0 s c0', recur p a b c0 = some (s, c0') →
      cacheMono c0 c0' ∧ cacheBnd (rd - 1) c0 c0')
    (hInv : ∀ e, cacheGet c (G.hash pos) = some e → e.depth < rd)
    (s : Score) (c' : SWCache)
    (heq : negamaxBody G recur qfuel pos rd a0 b0 c pref = some (s, c')) :
    cacheMono c c' ∧ cacheBnd rd c c' := by
  by_cases hrd : rd = 0
  · subst hrd
    rw [negamaxBody, if_pos rfl] at heq
    rw [Option.map_eq_some'] at heq
    obtain ⟨⟨v, c1⟩, hq, hf⟩ := heq
    rw [quiescent_board_score, Option.map_eq_some'] at hq
    obtain ⟨score, _, hg⟩ := hq
    obtain ⟨rfl, rfl⟩ := Prod.mk.injEq .. |>.mp hg
    obtain ⟨rfl, rfl⟩ := Prod.mk.injEq .. |>.mp hf
    exact ⟨iicb_mono G pos 0 score [] c, iicb_bnd G pos 0 score [] c⟩
  · rw [negamaxBody, if_neg hrd] at heq
    by_cases hlen : (validMovesOf G pos pref).length = 0
    · rw [if_pos hlen] at heq
      simp only [Option.some.injEq, Prod.mk.injEq] at heq
      obtain ⟨rfl, rfl⟩ := heq
      exact ⟨cacheMono_refl c, cacheBnd_refl rd c⟩
    · rw [if_neg hlen] at heq
      exact negamaxLoopF_mono G recur pos rd hrec _ _ _ _ _ _ _ _ _ hInv heq

/-- The full search never decreases the depth stored for any hash. -/
theorem negamax_mono :
    ∀ (fuel : Nat) (G : GameOracle) (pos : Nat) (rd a b : Int) (c : SWCache)
      (s : Score) (c' : SWCache),
      negamax_alpha_beta_cache G fuel pos rd a b c = some (s, c') →
      cacheMono c c' ∧ cacheBnd rd c c' := by
  intro fuel
  induction fuel with
  | zero =>
    intro G pos rd a b c s c' heq
    cases heq
  | succ n ih =>
    intro G pos rd a b c s c' heq
    cases hg : cacheGet c (G.hash pos) with
    | some ce =>
      rw [negamax_succ] at heq
      simp only [hg] at heq
      by_cases hd : ce.depth ≥ rd
      · rw [if_pos hd] at heq
        simp only [Option.some.injEq, Prod.mk.injEq] at heq
        obtain ⟨rfl, rfl⟩ := heq
        exact ⟨cacheMono_refl c, cacheBnd_refl rd c⟩
      · rw [if_neg hd] at heq
        refine negamaxBody_mono G _ n pos rd a b c (some ce.targets)
          (fun p a' b' c0 s0 c0' h0 => ih G p (rd - 1) a' b' c0 s0 c0' h0)
          ?_ s c' heq
        intro e hge
        rw [hg] at hge
        obtain rfl := Option.some.inj hge
        omega
    | none =>
      rw [negamax_succ] at heq
      simp only [hg] at heq
      refine negamaxBody_mono G _ n pos rd a b c none
        (fun p a' b' c0 s0 c0' h0 => ih G p (rd - 1) a' b' c0 s0 c0' h0)
        ?_ s c' heq
      intro e hge
      rw [hg] at hge
      cases hge

/-- Full evaluation of the source search on the White chain game: with
one legal move to a moveless child of raw score v, the search at
remaining depth 1 returns the child score unchanged, cutting off with
LowerBound v exactly when beta is strictly below v, and stores the
result at depth 1. -/
theorem chain_eval_white (v a b : Int) (h1 : I32_MIN ≤ v) (h2 : v < I32_MAX)
    (fuel : Nat) :
    negamax_alpha_beta_cache (chainOracle 0 v) (fuel + 3) 0 1 a b [] =
      some (if b < v then Score.LowerBound v else Score.Exact v,
        [(0, ⟨1, if b < v then Score.LowerBound v else Score.Exact v, [1]⟩),
         (1, ⟨0, Score.Exact v, []⟩)]) := by
  rw [show fuel + 3 = Nat.succ (fuel + 2) from rfl, negamax_succ]
  rw [show fuel + 2 = Nat.succ (fuel + 1) from rfl]
  simp only [chainOracle, cacheGet, negamaxBody, negamax_succ, MoveOrderSW.new,
    validMovesOf, bestInit, Option.map, negamaxLoopF, quiescent_board_score,
    quiescent_alpha_beta, quiesceLoopF, insert_in_cache_if_better, cacheInsert,
    TopTargets.new, TopTargets.try_insert, TopTargets.targets, Score.toInt,
    List.contains, List.filter, List.length, List.map, List.append]
  norm_num
  rw [if_neg (not_le.mpr h2), max_eq_right h1]
  simp only [negamaxLoopF, TopTargets.try_insert, TopTargets.targets, cacheInsert,
    List.map, Score.toInt, List.length, List.set]
  rw [max_eq_right h1]
  by_cases hb : b < v
  · simp only [if_pos (Or.inr hb : b < I32_MIN ∨ b < v), if_pos hb]
  · have hniv : ¬(b < I32_MIN ∨ b < v) := by
      rintro (h | h)
      · exact hb (lt_of_lt_of_le h h1)
      · exact hb h
    simp only [if_neg hniv, if_neg hb]

/-- Full evaluation of the source search on the Black chain game: the
child score v is again propagated unchanged; Black cuts off with
UpperBound v exactly when v is strictly below alpha. -/
theorem chain_eval_black (v a b : Int) (h1 : I32_MIN ≤ v) (h2 : v < I32_MAX)
    (fuel : Nat) :
    negamax_alpha_beta_cache (chainOracleB 0 v) (fuel + 3) 0 1 a b [] =
      some (if v < a then Score.UpperBound v else Score.Exact v,
        [(0, ⟨1, if v < a then Score.UpperBound v else Score.Exact v, [1]⟩),
         (1, ⟨0, Score.Exact v, []⟩)]) := by
  rw [show fuel + 3 = Nat.succ (fuel + 2) from rfl, negamax_succ]
  rw [show fuel + 2 = Nat.succ (fuel + 1) from rfl]
  simp only [chainOracleB, cacheGet, negamaxBody, negamax_succ, MoveOrderSW.new,
    validMovesOf, bestInit, Option.map, negamaxLoopF, quiescent_board_score,
    quiescent_alpha_beta, quiesceLoopF, insert_in_cache_if_better, cacheInsert,
    TopTargets.new, TopTargets.try_insert, TopTargets.targets, Score.toInt,
    List.contains, List.filter, List.length, List.map, List.append]
  norm_num
  rw [if_neg (not_le.mpr h2), max_eq_right h1]
  simp only [negamaxLoopF, TopTargets.try_insert, TopTargets.targets, cacheInsert,
    List.map, Score.toInt, List.length, List.set]
  rw [min_eq_right (le_of_lt h2)]
  by_cases hb : v < a
  · simp only [if_pos (Or.inr hb : I32_MAX < a ∨ v < a), if_pos hb]
  · have hniv : ¬(I32_MAX < a ∨ v < a) := by
      rintro (h | h)
      · exact hb (lt_trans h2 h)
      · exact hb h
    simp only [if_neg hniv, if_neg hb]

/-! ### Counterexample theorems for the claims that fail on the code -/

/-- C1 counterexample: on the one move game with child raw score 7 the
source search returns Exact 7, while the expansion described by the
claim (window negated and swapped, child result negated, cutoff at
bestValue at least beta) returns Exact (-7); the source does not negate
the child result. -/
theorem C1_counterexample :
    (negamax_alpha_beta_cache (chainOracle 0 7) 3 0 1 I32_MIN I32_MAX []).map
        Prod.fst = some (Score.Exact 7) ∧
    (negamaxClaimC1 (chainOracle 0 7) 3 0 1 I32_MIN I32_MAX []).map Prod.fst =
      some (Score.Exact (-7)) ∧
    Score.Exact (7 : Int) ≠ Score.Exact (-7) := by
  decide

/-- C2 counterexample: with a cached LowerBound 42 entry of depth 5 at
the root and remaining depth 1, the source search returns LowerBound 42
immediately, while the probe described by the claim (a bound only
tightens the window and the search continues) returns Exact 7. -/
theorem C2_counterexample :
    (negamax_alpha_beta_cache (chainOracle 0 7) 1 0 1 I32_MIN I32_MAX
        [(0, ⟨5, Score.LowerBound 42, []⟩)]).map Prod.fst =
      some (Score.LowerBound 42) ∧
    (negamaxClaimC2 (chainOracle 0 7) 3 0 1 I32_MIN I32_MAX
        [(0, ⟨5, Score.LowerBound 42, []⟩)]).map Prod.fst =
      some (Score.Exact 7) ∧
    Score.LowerBound (42 : Int) ≠ Score.Exact 7 := by
  decide

/-- C3 counterexample: two insert_in_cache_if_better calls at the same
hash and the same depth 3, first with score Exact 1 and then with score
Exact 2, leave the first entry in the cache: on equal depth the first
write wins, not the most recent one as the claim states. -/
theorem C3_counterexample :
    cacheGet
        (insert_in_cache_if_better (chainOracle 0 0) 0 3 (Score.Exact 2) []
          (insert_in_cache_if_better (chainOracle 0 0) 0 3 (Score.Exact 1) [] []))
        0 = some ⟨3, Score.Exact 1, []⟩ ∧
    (⟨3, Score.Exact 1, []⟩ : CacheData) ≠ ⟨3, Score.Exact 2, []⟩ := by
  decide

/-- C5 counterexample: a child score exactly one above the representable
minimum, well within 100 of the extreme, is propagated by the source
search unchanged as Exact (I32_MIN + 1); the discount described by the
claim would have turned it into I32_MIN + 2 before the comparison at the
parent. -/
theorem C5_counterexample :
    (negamax_alpha_beta_cache (chainOracle 0 (I32_MIN + 1)) 3 0 1 I32_MIN
        I32_MAX []).map Prod.fst = some (Score.Exact (I32_MIN + 1)) ∧
    discountClaim (I32_MIN + 1) = I32_MIN + 2 ∧
    Score.Exact (I32_MIN + 1) ≠ Score.Exact (I32_MIN + 2) := by
  decide

/-- C6 counterexample: at remaining depth -1 on the two position game
the source search does not hand off to quiescence: it recurses into the
single child and returns Exact 7, the raw score of the moveless child,
while the quiescence search on the root bounded by the same window
yields 99. -/
theorem C6_counterexample :
    (negamax_alpha_beta_cache (chainOracle 99 7) 2 0 (-1) I32_MIN I32_MAX []).map
        Prod.fst = some (Score.Exact 7) ∧
    (quiescent_alpha_beta (chainOracle 99 7) 2 0 I32_MIN I32_MAX).map
        Score.toInt = some 99 ∧
    (7 : Int) ≠ 99 := by
  decide

/-- C7 counterexample: in hintedOracle the two legal moves share the
destination square 9 and the hint collection retains only the first of
them, so the hinted move ordering yields only that move: the second
legal move is omitted because both later stages mask away the hinted
destination square. -/
theorem C7_counterexample :
    MoveOrder.new_with_hint hintedOracle 0 hintTT = [⟨0, 9⟩] ∧
    (⟨1, 9⟩ : Move) ∈ hintedOracle.legalMoves 0 ∧
    (⟨1, 9⟩ : Move) ∉ ([⟨0, 9⟩] : List Move) := by
  decide

/-! ### Claim C1 (amended) -/

/-- C1 amended: the expansion step is a plain minimax.  The child is
searched with the window and orientation unchanged and its result is
compared without negation: on the White chain game with child value v
the result is v itself, a beta cutoff fires only when beta is strictly
below the best value and stores and returns LowerBound bestValue at
depth remainingDepth; on the Black chain game the symmetric cutoff fires
only when the best value is strictly below alpha and stores and returns
UpperBound bestValue. -/
theorem C1_theorem (v a b : Int) (h1 : I32_MIN ≤ v) (h2 : v < I32_MAX) :
    negamax_alpha_beta_cache (chainOracle 0 v) 3 0 1 a b [] =
      some (if b < v then Score.LowerBound v else Score.Exact v,
        [(0, ⟨1, if b < v then Score.LowerBound v else Score.Exact v, [1]⟩),
         (1, ⟨0, Score.Exact v, []⟩)]) ∧
    negamax_alpha_beta_cache (chainOracleB 0 v) 3 0 1 a b [] =
      some (if v < a then Score.UpperBound v else Score.Exact v,
        [(0, ⟨1, if v < a then Score.UpperBound v else Score.Exact v, [1]⟩),
         (1, ⟨0, Score.Exact v, []⟩)]) :=
  ⟨chain_eval_white v a b h1 h2 0, chain_eval_black v a b h1 h2 0⟩

/-- C1 witness: at child value 20 and window (-10, 10) the White search
cuts off and returns LowerBound 20, stored at depth 1. -/
theorem C1_witness :
    negamax_alpha_beta_cache (chainOracle 0 20) 3 0 1 (-10) 10 [] =
      some (Score.LowerBound 20,
        [(0, ⟨1, Score.LowerBound 20, [1]⟩), (1, ⟨0, Score.Exact 20, []⟩)]) := by
  have h := (C1_theorem 20 (-10) 10 (by decide) (by decide)).1
  rw [h]
  decide

/-! ### Claim C2 (amended) -/

/-- C2 amended: on a cache hit whose stored depth is at least the
remaining depth the search returns the stored score immediately whatever
its kind, Exact, LowerBound or UpperBound, leaving the cache and the
window untouched. -/
theorem C2_theorem (G : GameOracle) (fuel pos : Nat) (rd a b : Int)
    (cache : SWCache) (ce : CacheData)
    (hget : cacheGet cache (G.hash pos) = some ce) (hdep : rd ≤ ce.depth) :
    negamax_alpha_beta_cache G (fuel + 1) pos rd a b cache = some (ce.score, cache) := by
  simp only [negamax_alpha_beta_cache, hget]
  rw [if_pos (by exact hdep)]

/-- C2 witness: a stored LowerBound 42 of depth 5 is returned as is at
remaining depth 1. -/
theorem C2_witness :
    negamax_alpha_beta_cache (chainOracle 0 7) 1 0 1 I32_MIN I32_MAX
        [(0, ⟨5, Score.LowerBound 42, []⟩)] =
      some (Score.LowerBound 42, [(0, ⟨5, Score.LowerBound 42, []⟩)]) :=
  C2_theorem (chainOracle 0 7) 0 0 1 I32_MIN I32_MAX
    [(0, ⟨5, Score.LowerBound 42, []⟩)] ⟨5, Score.LowerBound 42, []⟩ rfl (by decide)

/-! ### Claim C5 (amended) -/

/-- C5 amended: no checkmate distance discounting exists in the search:
a child score is propagated to and compared at the parent unchanged,
for every value including the ones within 100 of the representable
extremes. -/
theorem C5_theorem (v : Int) (h1 : I32_MIN ≤ v) (h2 : v < I32_MAX) :
    (negamax_alpha_beta_cache (chainOracle 0 v) 3 0 1 I32_MIN I32_MAX []).map
      Prod.fst = some (Score.Exact v) := by
  have h := chain_eval_white v I32_MIN I32_MAX h1 h2 0
  rw [h]
  have hnb : ¬(I32_MAX < v) := not_lt.mpr (le_of_lt h2)
  simp [hnb]

/-- C5 witness: the value one above the representable minimum, well
within the claimed discount threshold, is propagated unchanged. -/
theorem C5_witness :
    (negamax_alpha_beta_cache (chainOracle 0 (I32_MIN + 1)) 3 0 1 I32_MIN
        I32_MAX []).map Prod.fst = some (Score.Exact (I32_MIN + 1)) :=
  C5_theorem (I32_MIN + 1) (by decide) (by decide)

/-! ### Claim C6 (amended) -/

/-- C6 amended: the search degrades to a leaf only in two ways.  A
position with no legal moves at nonzero remaining depth returns Exact
rawScore directly, without quiescence and without caching; and at
negative remaining depth a position with legal moves keeps recursing
into its children (on the chain game the returned value is the raw
score of the moveless child, reached at remaining depth rd - 1), only
remaining depth exactly 0 hands off to quiescence. -/
theorem C6_theorem :
    (∀ (G : GameOracle) (fuel pos : Nat) (rd a b : Int) (cache : SWCache),
      cacheGet cache (G.hash pos) = none → rd ≠ 0 → G.legalMoves pos = [] →
      negamax_alpha_beta_cache G (fuel + 1) pos rd a b cache =
        some (Score.Exact (G.rawScore pos), cache)) ∧
    (∀ (rd w v a b : Int), rd < 0 → I32_MIN ≤ v →
      (negamax_alpha_beta_cache (chainOracle w v) 2 0 rd a b []).map Prod.fst =
        some (if b < v then Score.LowerBound v else Score.Exact v)) := by
  constructor
  · intro G fuel pos rd a b cache hget hrd hlegal
    rw [show fuel + 1 = Nat.succ fuel from rfl, negamax_succ, hget]
    simp only [negamaxBody, validMovesOf, MoveOrderSW.new, hlegal]
    rw [if_neg hrd]
    simp
  · intro rd w v a b hrd h1
    rw [show (2 : Nat) = Nat.succ 1 from rfl, negamax_succ]
    rw [show (1 : Nat) = Nat.succ 0 from rfl]
    simp only [chainOracle, cacheGet, negamaxBody, negamax_succ, MoveOrderSW.new,
      validMovesOf, bestInit, Option.map, negamaxLoopF, List.contains, List.filter,
      List.length, List.map, List.append]
    norm_num
    rw [if_neg (ne_of_lt hrd), if_neg (by omega : ¬(rd - 1 = 0))]
    simp only [negamaxLoopF, TopTargets.new, TopTargets.try_insert,
      TopTargets.targets, cacheInsert, List.map, Score.toInt, List.length, List.set]
    rw [max_eq_right h1]
    by_cases hb : b < v
    · simp only [if_pos (Or.inr hb : b < I32_MIN ∨ b < v), if_pos hb]
    · have hniv : ¬(b < I32_MIN ∨ b < v) := by
        rintro (h | h)
        · exact hb (lt_of_lt_of_le h h1)
        · exact hb h
      simp only [if_neg hniv, if_neg hb]

/-- C6 witness: a moveless position at remaining depth 5 returns its raw
score directly, and the chain game at remaining depth -1 returns the raw
score of the moveless child. -/
theorem C6_witness :
    negamax_alpha_beta_cache emptyOracle 1 0 5 0 0 [] =
      some (Score.Exact 3, []) ∧
    (negamax_alpha_beta_cache (chainOracle 99 7) 2 0 (-1) I32_MIN I32_MAX []).map
      Prod.fst = some (Score.Exact 7) := by
  constructor
  · have h := C6_theorem.1 emptyOracle 0 0 5 0 0 [] rfl (by decide) rfl
    simpa [emptyOracle] using h
  · have h := C6_theorem.2 (-1) 99 7 I32_MIN I32_MAX (by decide) (by decide)
    rw [h]
    decide

/-! ### Claim C3 (amended) -/

/-- C3 amended: insert_in_cache_if_better never decreases a stored
depth, and it overwrites an existing entry only when the new depth is
strictly greater than the stored one: on equal depth the FIRST write
wins, the cache is left unchanged.  The unconditional stores performed
by the search also never decrease any stored depth, because a node
stores only when the probed entry for its hash was absent or strictly
shallower than the stored depth and the subtree below it writes only
shallower entries. -/
theorem C3_theorem :
    (∀ (G : GameOracle) (pos : Nat) (d : Int) (s : Score) (t : List Nat)
      (c : SWCache), cacheMono c (insert_in_cache_if_better G pos d s t c)) ∧
    (∀ (G : GameOracle) (pos : Nat) (d : Int) (s : Score) (t : List Nat)
      (c : SWCache) (e : CacheData), cacheGet c (G.hash pos) = some e →
      d ≤ e.depth → insert_in_cache_if_better G pos d s t c = c) ∧
    (∀ (G : GameOracle) (fuel pos : Nat) (rd a b : Int) (c : SWCache)
      (s : Score) (c' : SWCache),
      negamax_alpha_beta_cache G fuel pos rd a b c = some (s, c') →
      cacheMono c c') :=
  ⟨iicb_mono, iicb_keep,
    fun G fuel pos rd a b c s c' h => (negamax_mono fuel G pos rd a b c s c' h).1⟩

/-- C3 witness: an equal depth insert leaves the cache unchanged, and a
run of the search on the chain game does not decrease the depth of a
preexisting entry for an unrelated hash. -/
theorem C3_witness :
    insert_in_cache_if_better (chainOracle 0 0) 0 3 (Score.Exact 2) []
        [(0, ⟨3, Score.Exact 1, []⟩)] = [(0, ⟨3, Score.Exact 1, []⟩)] ∧
    cacheMono [(7, ⟨2, Score.Exact 5, []⟩)]
      [(9, ⟨4, Score.Exact 6, []⟩), (7, ⟨2, Score.Exact 5, []⟩)] := by
  constructor
  · exact C3_theorem.2.1 (chainOracle 0 0) 0 3 (Score.Exact 2) []
      [(0, ⟨3, Score.Exact 1, []⟩)] ⟨3, Score.Exact 1, []⟩ rfl (by decide)
  · exact C3_theorem.1 (chainOracle 0 0) 9 4 (Score.Exact 6) []
      [(7, ⟨2, Score.Exact 5, []⟩)]

/-! ### Claim C4 -/

/-- C4: on a root position with no legal moves the driver does not
return the None value: the source prints the chosen move by unwrapping
the empty option, so the call panics (modelled as Except.error) instead
of returning None as the claim and the source comment state. -/
theorem C4_theorem :
    best_next_move_at_depth emptyOracle 5 0 8 [] = some (Except.error ()) := by
  rfl

/-! ### Claim C8 -/

/-- C8: after the insertions with scores 4, 3, 10 into a TopTargets of
capacity 2, the code retains the scores 10 and 3, not the two highest
scores 10 and 4 seen so far: try_insert replaces the first entry below
the new score instead of the minimum one, so the collection does not
always contain the max_size highest scored entries. -/
theorem C8_theorem :
    ((((TopTargets.new 2).try_insert 4 ⟨0, 1⟩).try_insert 3 ⟨2, 3⟩).try_insert
        10 ⟨4, 5⟩).moves = [(10, ⟨4, 5⟩), (3, ⟨2, 3⟩)] ∧
    ((4 : Int), (⟨0, 1⟩ : Move)) ∉
      ((((TopTargets.new 2).try_insert 4 ⟨0, 1⟩).try_insert 3 ⟨2, 3⟩).try_insert
        10 ⟨4, 5⟩).moves ∧
    (3 : Int) < 4 := by
  decide

/-! ### Claim C9 -/

/-- C9: the black knight table does not equal the white knight table
reflected across the rank axis.  At file 7, rank 7 (cell 63) the
reflection requires the white cell 7, but change_color as written stores
the white cell 57 there, and these differ. -/
theorem C9_theorem :
    BLACK_KNIGHT.cells.getD 63 0 = WHITE_KNIGHT.cells.getD 57 0 ∧
    BLACK_KNIGHT.cells.getD 63 0 ≠ WHITE_KNIGHT.cells.getD 7 0 := by
  decide

/-! ### Claim C7 (amended) -/

/-- Splitting a count over a filter and its complement. -/
theorem count_filter_compl (p : Move → Bool) (m : Move) (l : List Move) :
    (l.filter p).count m + (l.filter (fun x => !(p x))).count m = l.count m := by
  induction l with
  | nil => simp
  | cons x xs ih =>
    by_cases hp : p x
    · rw [List.filter_cons_of_pos hp, List.filter_cons_of_neg (by simp [hp]),
        List.count_cons, List.count_cons]
      omega
    · rw [List.filter_cons_of_neg (by simp [hp]), List.filter_cons_of_pos (by simp [hp]),
        List.count_cons, List.count_cons]
      omega

/-- C7 amended: without hints the move ordering yields each legal move
with its original multiplicity (so each exactly once when the legal move
list has no duplicates), and a position with no legal moves yields the
empty sequence; with hints, every legal move whose destination square is
masked by the hint target bitboard and which is not itself among the
hinted moves is omitted from the sequence. -/
theorem C7_theorem :
    (∀ (G : GameOracle) (pos : Nat) (m : Move),
      (MoveOrder.new G pos).count m = (G.legalMoves pos).count m) ∧
    (∀ (G : GameOracle) (pos : Nat), G.legalMoves pos = [] →
      MoveOrder.new G pos = []) ∧
    (∀ (G : GameOracle) (pos : Nat) (tt : TopTargets) (m : Move),
      tt.targets.contains m.dst = true → m ∉ tt.ordered_moves →
      m ∉ MoveOrder.new_with_hint G pos tt) := by
  refine ⟨?_, ?_, ?_⟩
  · intro G pos m
    simp only [MoveOrder.new]
    rw [List.count_append]
    exact count_filter_compl _ m _
  · intro G pos h
    simp [MoveOrder.new, h]
  · intro G pos tt m hc hmem hmem'
    simp [MoveOrder.new_with_hint, List.mem_filter, hc] at hmem'
    have hcm : m.dst ∈ tt.targets := by simpa using hc
    rcases hmem' with h | h | h
    · exact hmem h
    · exact h.2.2 hcm
    · exact h.2.2 hcm

/-- C7 witness: in hintedOracle the unhinted second move, whose
destination square is masked by the hint bitboard, is omitted. -/
theorem C7_witness : (⟨1, 9⟩ : Move) ∉ MoveOrder.new_with_hint hintedOracle 0 hintTT :=
  C7_theorem.2.2 hintedOracle 0 hintTT ⟨1, 9⟩ (by decide) (by decide)

/-! ### Claim C10 -/

/-- Negating a Score flips the bound and negates the numeric value. -/
theorem Score.neg_toInt (s : Score) : (Score.neg s).toInt = -s.toInt := by
  cases s <;> rfl

/-- The source capture loop and the claimed capture loop agree whenever
their recursive calls agree. -/
theorem quiesceLoopF_eq_claim (G : GameOracle) (r1 r2 : Nat → Int → Int → Option Score)
    (hr : ∀ p a b, r1 p a b = r2 p a b) (pos : Nat) (beta : Int) :
    ∀ (ms : List Move) (alpha : Int),
      quiesceLoopF G r1 pos beta ms alpha = quiesceClaimLoopF G r2 pos beta ms alpha := by
  intro ms
  induction ms with
  | nil => intro alpha; rfl
  | cons m rest ih =>
    intro alpha
    simp only [quiesceLoopF, quiesceClaimLoopF, hr]
    cases h : r2 (G.apply pos m) (-beta) (-alpha) with
    | none => rfl
    | some cs =>
      simp only [Score.neg_toInt]
      by_cases hb : beta ≤ -cs.toInt
      · rw [if_pos hb, if_pos hb]
      · rw [if_neg hb, if_neg hb, ih]

/-- C10: the quiescent_alpha_beta function of evaluation.rs computes
exactly what the claim describes: stand pat first, LowerBound standPat
on an immediate beta cutoff, alpha raised to the stand pat score, each
capture searched with the negated swapped window and its negated score
compared against beta, LowerBound childScore on a cutoff, and Exact
alpha once the captures are exhausted. -/
theorem C10_theorem :
    ∀ (G : GameOracle) (fuel pos : Nat) (alpha beta : Int),
      quiescent_alpha_beta G fuel pos alpha beta = quiesceClaim G fuel pos alpha beta := by
  intro G fuel
  induction fuel with
  | zero => intro pos alpha beta; rfl
  | succ n ih =>
    intro pos alpha beta
    simp only [quiescent_alpha_beta, quiesceClaim]
    by_cases hb : beta ≤ G.rawScore pos
    · rw [if_pos hb, if_pos hb]
    · rw [if_neg hb, if_neg hb]
      exact quiesceLoopF_eq_claim G _ _ (fun p a b => ih p a b) pos beta _ _

end StockWishVerify
